import Mathlib

/-!
Shallow embedding of `scraper.py` (Cult-Design-Scraper).

Text read from the page is modelled as `List Char`; the Python string
operations used by the scraper (`str.strip`, `str.lower`, `str.split()`,
`str.rstrip(":")`, the `in` substring test) are embedded character-level.
Selenium lookups that can raise (`find_element`, `WebDriverWait.until`)
are modelled by `Option` inputs in `PageData`; a `none` corresponds to the
raised exception, and the control flow of `scrape_products` is embedded
with `Except`.
-/

namespace CultScraper

/-- Python `str` whitespace test, character level. -/
def isWs (c : Char) : Bool := c.isWhitespace

/-- Python `str.lower()`: lower-case each character. -/
def pyLower (l : List Char) : List Char := l.map Char.toLower

/-- Remove trailing whitespace (the right half of Python `str.strip()`). -/
def dropTrailingWs (l : List Char) : List Char := (l.reverse.dropWhile isWs).reverse

/-- Python `str.strip()`: remove leading and trailing whitespace. -/
def pyStrip (l : List Char) : List Char := dropTrailingWs (l.dropWhile isWs)

/-- Python `str.rstrip(":")`: remove all trailing colon characters. -/
def pyRstripColon (l : List Char) : List Char := (l.reverse.dropWhile (· = ':')).reverse

/-- Does `l` start with `p`? (helper for the Python `in` substring test). -/
def listStartsWith : List Char → List Char → Bool
  | _, [] => true
  | [], _ :: _ => false
  | c :: cs, d :: ds => c = d && listStartsWith cs ds

/-- Python `needle in hay` for strings: substring containment. -/
def pyContains (hay needle : List Char) : Bool :=
  match hay with
  | [] => needle.isEmpty
  | c :: rest => listStartsWith (c :: rest) needle || pyContains rest needle

/-- Worker for Python `str.split()` (split on whitespace runs, no empty
tokens); `cur` is the reversed pending token. -/
def splitAux : List Char → List Char → List (List Char)
  | [], cur => if cur.isEmpty then [] else [cur.reverse]
  | c :: rest, cur =>
    if isWs c then
      if cur.isEmpty then splitAux rest [] else cur.reverse :: splitAux rest []
    else splitAux rest (c :: cur)

/-- Python `str.split()` with no separator argument. -/
def pySplit (l : List Char) : List (List Char) := splitAux l []

/-- Line 90: `in_stock = "YES" if "lager" in availability_text else "NO"`,
with `availability_text` produced at line 89 by `.text.lower()`. The
argument here is the raw element text; `.lower()` is applied inside. -/
def stockFlag (text : List Char) : List Char :=
  if pyContains (pyLower text) "lager".toList then "YES".toList else "NO".toList

/-- Insertion-ordered string dictionary, the model of Python `dict`. -/
abbrev Dict := List (List Char × List Char)

/-- Keys of a `Dict`, in insertion order. -/
def keysOf (d : Dict) : List (List Char) := d.map Prod.fst

/-- Overwrite the value stored at key `k`, keeping its position. -/
def updateVal (d : Dict) (k v : List Char) : Dict :=
  d.map fun p => if p.1 = k then (p.1, v) else p

/-- Python `d[k] = v` on an insertion-ordered dict: an existing key keeps
its position and gets the new value; a fresh key is appended. -/
def dictInsert (d : Dict) (k v : List Char) : Dict :=
  if k ∈ keysOf d then updateVal d k v else d ++ [(k, v)]

/-- Line 99: `label = cells[0].text.strip().rstrip(":")`. -/
def rowLabel (c0 : List Char) : List Char := pyRstripColon (pyStrip c0)

/-- Lines 97-101: one `tr` row of the attribute table; rows without
exactly two `td` cells are skipped. -/
def addRow (d : Dict) (cells : List (List Char)) : Dict :=
  match cells with
  | [c0, c1] => dictInsert d (rowLabel c0) (pyStrip c1)
  | _ => d

/-- Lines 93-103: fold all rows of the attribute table into
`extra_attributes`. -/
def buildAttrs (rows : List (List (List Char))) : Dict :=
  rows.foldl addRow []

/-- The label a row contributes, if it is well-formed (exactly two
cells); `none` for a skipped row. -/
def wfLabel (cells : List (List Char)) : Option (List Char) :=
  match cells with
  | [c0, _] => some (rowLabel c0)
  | _ => none

/-- Lines 118-127: body of the thumbnail loop. A failed click (`none`) is
caught and contributes nothing; otherwise the freshly read main-image
`src` is appended unless already present (line 124). -/
def addImage (acc : List (List Char)) (t : Option (List Char)) : List (List Char) :=
  match t with
  | none => acc
  | some src => if src ∈ acc then acc else acc ++ [src]

/-- Lines 106-127: collect image URLs. The main image (if found) is
appended first; then each thumbnail contributes via `addImage`. -/
def collectImages (mainImg : Option (List Char)) (thumbs : List (Option (List Char))) :
    List (List Char) :=
  thumbs.foldl addImage (match mainImg with | some u => [u] | none => [])

/-- Lines 135-142, image numbering: `enumerate(image_urls, start=1)` with
the download/convert attempt inside a per-image `try`. `ok u` says whether
download+conversion of URL `u` succeeds; the result is the list of file
numbers actually written, in order. -/
def saveImagesFrom (ok : List Char → Bool) : Nat → List (List Char) → List Nat
  | _, [] => []
  | idx, u :: rest =>
    if ok u then idx :: saveImagesFrom ok (idx + 1) rest
    else saveImagesFrom ok (idx + 1) rest

/-- The numbered `.webp` files written for a product's URL list. -/
def saveImages (ok : List Char → Bool) (urls : List (List Char)) : List Nat :=
  saveImagesFrom ok 1 urls

/-- Exceptions that can escape the per-product extraction code. -/
inductive Err where
  /-- `WebDriverWait(...).until(...)` expired (title element absent). -/
  | timeout : Err
  /-- `find_element` found nothing (price or availability element). -/
  | noSuchElement : Err
  /-- `price_text.split()[0]` on an empty token list. -/
  | indexError : Err
deriving DecidableEq, Repr

deriving instance DecidableEq for Except

/-- The DOM state of one product page, as the scraper reads it. -/
structure PageData where
  /-- `h1.product-name` text; `none` means the readiness wait times out. -/
  titleEl : Option (List Char)
  /-- `.product-description` elements' texts (`find_elements`, may be empty). -/
  descEls : List (List Char)
  /-- `lib-price-inside span span` text; `none` raises. -/
  priceEl : Option (List Char)
  /-- `lib-availability a` text; `none` raises. -/
  availEl : Option (List Char)
  /-- `.attribute-table` rows (each a list of `td` texts); `none` means the
  table is absent and `NoSuchElementException` is caught at line 102. -/
  attrRows : Option (List (List (List Char)))
  /-- `.image-container img` `src`; `none` means no main image (caught). -/
  mainImg : Option (List Char)
  /-- Per-thumbnail outcome: `some src` is the main-image `src` read after
  the click, `none` a caught per-thumbnail failure. -/
  thumbs : List (Option (List Char))
deriving DecidableEq, Repr

/-- One product's extracted record, built at lines 78-130. -/
structure ProductRecord where
  sku : List Char
  title : List Char
  description : List Char
  price : List Char
  in_stock : List Char
  attributes : Dict
  imageUrls : List (List Char)
deriving DecidableEq, Repr

/-- Lines 73-130: extract one product page. Required lookups raise
(`Except.error`); optional content degrades. Order follows the source:
title, description, price text, price token, availability, attributes,
images. -/
def extractProduct (sku : List Char) (p : PageData) : Except Err ProductRecord :=
  match p.titleEl with
  | none => .error .timeout
  | some rawTitle =>
    let title := pyStrip rawTitle
    let description := match p.descEls with | [] => [] | d :: _ => pyStrip d
    match p.priceEl with
    | none => .error .noSuchElement
    | some rawPrice =>
      match pySplit (pyStrip rawPrice) with
      | [] => .error .indexError
      | price :: _ =>
        match p.availEl with
        | none => .error .noSuchElement
        | some rawAvail =>
          .ok { sku := sku
                title := title
                description := description
                price := price
                in_stock := stockFlag rawAvail
                attributes := (match p.attrRows with
                               | none => []
                               | some rows => buildAttrs rows)
                imageUrls := collectImages p.mainImg p.thumbs }

/-- `Except.ok` test, used to state counterexamples concretely. -/
def isOkE {α : Type} : Except Err α → Bool
  | .ok _ => true
  | .error _ => false

/-- Lines 70-160: the per-SKU loop. There is no `try` around the loop
body, so the first uncaught error ends the loop. Returns the records of
the products processed before any error, and the terminal error if one
occurred. -/
def runLoop (pages : List Char → PageData) : List (List Char) → List (List Char × ProductRecord) × Option Err
  | [] => ([], none)
  | sku :: rest =>
    match extractProduct sku (pages sku) with
    | .error e => ([], some e)
    | .ok r => ((sku, r) :: (runLoop pages rest).1, (runLoop pages rest).2)

/-- Browser-session state: whether `driver.quit()` has been called. -/
structure DriverState where
  quitCalled : Bool
deriving DecidableEq, Repr

/-- Python `try: body finally: fin`: the finalizer runs on the state on
both the normal and the exceptional path, and an exception still
propagates afterwards. -/
def pyTryFinally {α : Type} (body : Except Err α) (s : DriverState)
    (fin : DriverState → DriverState) : Except Err α × DriverState :=
  match body with
  | .ok a => (.ok a, fin s)
  | .error e => (.error e, fin s)

/-- `driver.quit()` at line 163. -/
def driverQuit (s : DriverState) : DriverState := { s with quitCalled := true }

/-- Lines 55-163: `scrape_products`, reduced to the browser lifecycle and
the per-SKU loop. The loop body sits inside `try ... finally driver.quit()`. -/
def scrape_products (pages : List Char → PageData) (skus : List (List Char)) :
    Except Err (List (List Char × ProductRecord)) × DriverState :=
  pyTryFinally
    (match runLoop pages skus with
     | (ps, none) => .ok ps
     | (_, some e) => .error e)
    { quitCalled := false }
    driverQuit

/-- Lines 145-154: `metadata_lines`, the fixed header plus one appended
line per attribute (Python `list.append` in a loop over `dict.items()`). -/
def metadataLines (r : ProductRecord) : List (List Char) :=
  r.attributes.foldl
    (fun acc lv => acc ++ [lv.1 ++ ": ".toList ++ lv.2])
    [ "SKU: ".toList ++ r.sku
    , "Title: ".toList ++ r.title
    , "Price: ".toList ++ r.price
    , "In stock: ".toList ++ r.in_stock
    , []
    , r.description ]

/-- Line 158: `"\n".join(metadata_lines)`, the content of `data.txt`. -/
def dataTxt (r : ProductRecord) : List Char :=
  List.intercalate "\n".toList (metadataLines r)

/-- PIL image modes that carry an alpha channel (modelling the Pillow
library: `RGBA`, `RGBa`, `LA`, `La`, `PA`). -/
def alphaModes : List String := ["RGBA", "RGBa", "LA", "La", "PA"]

/-- PIL image modes that `Image.open` can produce when decoding a file
(modelling the Pillow decoders; premultiplied and `PA` modes are only
reachable via explicit conversion, not decoding). -/
def imageOpenModes : List String := ["1", "L", "P", "RGB", "RGBA", "CMYK", "YCbCr", "LA", "I", "F"]

/-- Number of channels of the two normalization targets. -/
def channelsOf (mode : String) : Nat :=
  if mode = "RGBA" then 4 else if mode = "RGB" then 3 else 0

/-- Parameters passed to `img.save` at line 51. -/
structure SaveParams where
  format : String
  optimize : Bool
deriving DecidableEq, Repr

/-- Lines 43-51: `convert_to_webp`, reduced to the mode decision: modes in
`("RGBA", "LA")` are converted to `RGBA`, everything else to `RGB`, then
saved as optimized WEBP. Returns the normalized mode and the save
parameters. -/
def convert_to_webp (mode : String) : String × SaveParams :=
  ( if mode = "RGBA" ∨ mode = "LA" then "RGBA" else "RGB"
  , { format := "WEBP", optimize := true } )

/-- A product page with every field present and well-formed. -/
def goodPage : PageData :=
  { titleEl := some "Vase".toList
    descEls := ["A vase.".toList]
    priceEl := some " 199 kr ".toList
    availEl := some "Finns i lager".toList
    attrRows := some [["Color:".toList, "Blue".toList]]
    mainImg := some "http://x/1.png".toList
    thumbs := [some "http://x/2.png".toList] }

/-- A page whose availability element is missing, so the required-field
lookup at line 89 raises `NoSuchElementException`. -/
def badAvailPage : PageData := { goodPage with availEl := none }

/-- A page whose displayed price text is whitespace-only, so
`price_text.split()[0]` at line 88 raises `IndexError`. -/
def wsPricePage : PageData := { goodPage with priceEl := some "   ".toList }

/-- Environment for the run-abort scenarios: SKU `A1` has a broken page,
every other SKU a good one. -/
def pagesC1 : List Char → PageData :=
  fun sku => if sku = "A1".toList then badAvailPage else goodPage

/-- Environment for the whitespace-price scenario: SKU `W1` has a
whitespace-only price text, every other SKU a good page. -/
def pagesC9 : List Char → PageData :=
  fun sku => if sku = "W1".toList then wsPricePage else goodPage

end CultScraper

open CultScraper

/-- C5: the browser session is quit on every exit path of
`scrape_products`, both on normal completion and when an error
propagates out of the run body. -/
theorem browser_quit_on_every_exit (pages : List Char → PageData)
    (skus : List (List Char)) :
    (scrape_products pages skus).2.quitCalled = true := by
  unfold scrape_products
  rcases h : runLoop pages skus with ⟨ps, err⟩
  cases err <;> simp [h, pyTryFinally, driverQuit]

/-- Folding the thumbnail step `addImage` preserves `Nodup`. -/
theorem dedupFold_nodup (thumbs : List (Option (List Char))) :
    ∀ acc : List (List Char), acc.Nodup →
      (List.foldl addImage acc thumbs).Nodup := by
  induction thumbs with
  | nil => intro acc h; simpa using h
  | cons t rest ih =>
    intro acc h
    cases t with
    | none => exact ih acc h
    | some src =>
      by_cases hm : src ∈ acc
      · simpa [List.foldl_cons, addImage, hm] using ih acc h
      · have hstep : (List.foldl addImage acc (some src :: rest))
            = List.foldl addImage (acc ++ [src]) rest := by
          simp [List.foldl_cons, addImage, hm]
        rw [hstep]
        exact ih (acc ++ [src]) (by simp [List.nodup_append, h, hm])

/-- C6: the collected image-URL list of a product page contains no
duplicates: an already-seen URL is skipped, so each URL appears at most
once in `collectImages`. -/
theorem collectImages_nodup (mainImg : Option (List Char))
    (thumbs : List (Option (List Char))) :
    (collectImages mainImg thumbs).Nodup := by
  have hinit : (match mainImg with
      | some u => [u]
      | none => ([] : List (List Char))).Nodup := by
    cases mainImg <;> simp
  exact dedupFold_nodup thumbs _ hinit

/-- C2 counterexample: three discovered URLs, the second fails to
download. The files written are `1.webp` and `3.webp` — two successes,
but not the files `1.webp` and `2.webp`, so numbering is not contiguous
and the failed download did consume a number. -/
theorem image_numbering_gap_cex :
    saveImages (fun u => decide (u ≠ "b".toList))
        ["a".toList, "b".toList, "c".toList] = [1, 3] ∧
    (saveImages (fun u => decide (u ≠ "b".toList))
        ["a".toList, "b".toList, "c".toList]).length = 2 ∧
    saveImages (fun u => decide (u ≠ "b".toList))
        ["a".toList, "b".toList, "c".toList] ≠ [1, 2] := by
  decide

/-- `saveImagesFrom` keeps the enumeration index of each success. -/
theorem saveImagesFrom_eq (ok : List Char → Bool) :
    ∀ (urls : List (List Char)) (n : Nat),
      saveImagesFrom ok n urls
        = ((List.enumFrom n urls).filter fun p => ok p.2).map Prod.fst := by
  intro urls
  induction urls with
  | nil => intro n; simp [saveImagesFrom]
  | cons u rest ih =>
    intro n
    by_cases h : ok u
    · simp [saveImagesFrom, List.enumFrom_cons, h, ih]
    · simp [saveImagesFrom, List.enumFrom_cons, h, ih]

/-- C2 amended: an image keeps the file number of its 1-based discovery
position; a failed download or conversion skips its file but still
consumes its number, so the written numbers are exactly the discovery
positions of the successes (in order, possibly with gaps). -/
theorem saveImages_discovery_positions (ok : List Char → Bool)
    (urls : List (List Char)) :
    saveImages ok urls
      = ((List.enumFrom 1 urls).filter fun p => ok p.2).map Prod.fst :=
  saveImagesFrom_eq ok urls 1

/-- C1 counterexample: two SKUs; the first one's page is missing the
required availability element, the second one's page is fine. The loop
aborts: no product is processed (in particular not the second, perfectly
extractable one) and the error surfaces as the run's terminal error. -/
theorem run_abort_on_required_field_cex :
    isOkE (extractProduct "B2".toList (pagesC1 "B2".toList)) = true ∧
    isOkE (extractProduct "A1".toList (pagesC1 "A1".toList)) = false ∧
    (runLoop pagesC1 ["A1".toList, "B2".toList]).1 = [] ∧
    (runLoop pagesC1 ["A1".toList, "B2".toList]).2 = some Err.noSuchElement := by
  decide

/-- C1 amended: a raised required-field extraction error for one
identifier is not caught by the per-identifier loop: exactly the
identifiers before it are processed and the run terminates with that
error (the spec itself notes this in its error-handling section). -/
theorem runLoop_aborts_at_first_error (pages : List Char → PageData)
    (pre : List (List Char)) (s : List Char) (post : List (List Char))
    (e : Err)
    (hpre : ∀ x ∈ pre, isOkE (extractProduct x (pages x)) = true)
    (hs : extractProduct s (pages s) = .error e) :
    (runLoop pages (pre ++ s :: post)).1.map Prod.fst = pre ∧
    (runLoop pages (pre ++ s :: post)).2 = some e := by
  induction pre with
  | nil => simp [runLoop, hs]
  | cons a rest ih =>
    have ha := hpre a (by simp)
    rcases hok : extractProduct a (pages a) with e' | r
    · rw [hok] at ha; simp [isOkE] at ha
    · have hrest := ih fun x hx => hpre x (by simp [hx])
      simp [runLoop, hok, hrest.1, hrest.2]

/-- C1 amended, witness: with SKU `B2` (good page) before SKU `A1`
(broken page) and `C3` after, exactly `B2` is processed and the run ends
with the `NoSuchElementException`. -/
theorem runLoop_aborts_at_first_error_witness :
    (runLoop pagesC1 (["B2".toList] ++ "A1".toList :: ["C3".toList])).1.map Prod.fst
        = ["B2".toList] ∧
    (runLoop pagesC1 (["B2".toList] ++ "A1".toList :: ["C3".toList])).2
        = some Err.noSuchElement :=
  runLoop_aborts_at_first_error pagesC1 ["B2".toList] "A1".toList ["C3".toList]
    Err.noSuchElement (by decide) (by decide)

/-- `listStartsWith l n` holds exactly when `n` is a prefix of `l`. -/
theorem listStartsWith_iff (n : List Char) :
    ∀ l : List Char, listStartsWith l n = true ↔ ∃ q, l = n ++ q := by
  induction n with
  | nil => intro l; simp [listStartsWith]
  | cons d ds ih =>
    intro l
    cases l with
    | nil => simp [listStartsWith]
    | cons c cs =>
      simp only [listStartsWith, Bool.and_eq_true, decide_eq_true_eq, ih,
        List.cons_append, List.cons.injEq]
      constructor
      · rintro ⟨rfl, q, rfl⟩; exact ⟨q, rfl, rfl⟩
      · rintro ⟨q, rfl, rfl⟩; exact ⟨rfl, q, rfl⟩

/-- `pyContains hay needle` holds exactly when `needle` occurs as a
contiguous substring of `hay`. -/
theorem pyContains_iff (needle : List Char) :
    ∀ hay : List Char, pyContains hay needle = true ↔ ∃ p q, hay = p ++ needle ++ q := by
  intro hay
  induction hay with
  | nil =>
    simp only [pyContains, List.isEmpty_iff]
    constructor
    · rintro rfl; exact ⟨[], [], rfl⟩
    · rintro ⟨p, q, h⟩
      rcases List.append_eq_nil.mp (List.append_eq_nil.mp h.symm).1 with ⟨_, h2⟩
      exact h2
  | cons c rest ih =>
    simp only [pyContains, Bool.or_eq_true, listStartsWith_iff, ih]
    constructor
    · rintro (⟨q, h⟩ | ⟨p, q, h⟩)
      · exact ⟨[], q, by simpa using h⟩
      · exact ⟨c :: p, q, by simp [h]⟩
    · rintro ⟨p, q, h⟩
      cases p with
      | nil => exact Or.inl ⟨q, by simpa using h⟩
      | cons x xs =>
        simp only [List.cons_append, List.cons.injEq] at h
        exact Or.inr ⟨xs, q, h.2⟩

/-- Splitting a mapped list along an append decomposes the original. -/
theorem map_eq_append_decomp {f : Char → Char} :
    ∀ (l x y : List Char), l.map f = x ++ y →
      ∃ a b, l = a ++ b ∧ a.map f = x ∧ b.map f = y := by
  intro l
  induction l with
  | nil =>
    intro x y h
    rcases List.append_eq_nil.mp h.symm with ⟨rfl, rfl⟩
    exact ⟨[], [], rfl, rfl, rfl⟩
  | cons c cs ih =>
    intro x y h
    cases x with
    | nil => exact ⟨[], c :: cs, rfl, rfl, by simpa using h⟩
    | cons x0 xs =>
      simp only [List.map_cons, List.cons_append, List.cons.injEq] at h
      obtain ⟨h1, h2⟩ := h
      obtain ⟨a, b, rfl, ha, hb⟩ := ih xs y h2
      exact ⟨c :: a, b, rfl, by simp [ha, h1], hb⟩

/-- The keyword occurs in the lowered text exactly when some substring of
the raw text matches the keyword case-insensitively. -/
theorem pyContains_lower_iff (text : List Char) :
    pyContains (pyLower text) "lager".toList = true ↔
      ∃ p s q, text = p ++ s ++ q ∧ pyLower s = pyLower "lager".toList := by
  rw [pyContains_iff]
  constructor
  · rintro ⟨p, q, h⟩
    simp only [pyLower] at h
    obtain ⟨a, bc, rfl, ha, hbc⟩ :=
      map_eq_append_decomp text p ("lager".toList ++ q) (by simpa [List.append_assoc] using h)
    obtain ⟨b, c2, rfl, hb, hc⟩ := map_eq_append_decomp bc "lager".toList q hbc
    refine ⟨a, b, c2, by simp, ?_⟩
    show b.map Char.toLower = pyLower "lager".toList
    rw [hb]; decide
  · rintro ⟨p, s, q, rfl, hs⟩
    have hs' : s.map Char.toLower = "lager".toList := by
      have hlag : pyLower "lager".toList = "lager".toList := by decide
      rw [hlag] at hs
      exact hs
    exact ⟨pyLower p, pyLower q,
      by simp [pyLower, List.map_append, hs', List.append_assoc]⟩

/-- C3 (confirmed): the stock flag is `YES` exactly when the
locale-specific keyword `lager` occurs, under case-insensitive
comparison, as a substring anywhere in the availability text, and `NO`
otherwise. -/
theorem stockFlag_yes_iff_keyword (text : List Char) :
    (stockFlag text = "YES".toList ↔
      ∃ p s q, text = p ++ s ++ q ∧ pyLower s = pyLower "lager".toList) ∧
    (stockFlag text = "NO".toList ↔
      ¬ ∃ p s q, text = p ++ s ++ q ∧ pyLower s = pyLower "lager".toList) := by
  have key := pyContains_lower_iff text
  cases hb : pyContains (pyLower text) "lager".toList with
  | false =>
    have hflag : stockFlag text = "NO".toList := by
      unfold stockFlag
      rw [hb]
      decide
    have hnocc : ¬ ∃ p s q, text = p ++ s ++ q ∧ pyLower s = pyLower "lager".toList := by
      intro hocc
      have hc := key.mpr hocc
      rw [hb] at hc
      exact Bool.false_ne_true hc
    refine ⟨⟨?_, ?_⟩, fun _ => hnocc, fun _ => hflag⟩
    · intro he
      exact absurd (hflag.symm.trans he) (by decide)
    · intro hocc
      exact absurd hocc hnocc
  | true =>
    have hflag : stockFlag text = "YES".toList := by
      unfold stockFlag
      rw [hb]
      decide
    have hocc := key.mp hb
    refine ⟨⟨fun _ => hocc, fun _ => hflag⟩, ?_, ?_⟩
    · intro he
      exact absurd (hflag.symm.trans he) (by decide)
    · intro hn
      exact absurd hocc hn

/-- Splitting an all-whitespace tail only flushes the pending token. -/
theorem splitAux_allWs :
    ∀ (w : List Char), (∀ c ∈ w, isWs c = true) →
      ∀ cur : List Char, splitAux w cur = if cur.isEmpty then [] else [cur.reverse] := by
  intro w
  induction w with
  | nil => intro _ cur; rfl
  | cons c rest ih =>
    intro hws cur
    have hc : isWs c = true := hws c (by simp)
    have hrest : ∀ x ∈ rest, isWs x = true := fun x hx => hws x (by simp [hx])
    cases cur with
    | nil => simp [splitAux, hc, ih hrest]
    | cons a as => simp [splitAux, hc, ih hrest]

/-- With a non-empty pending token, the head token of `splitAux` is the
pending token followed by the next non-whitespace run. -/
theorem splitAux_head_pending :
    ∀ (s cur : List Char), cur ≠ [] →
      (splitAux s cur).head?
        = some (cur.reverse ++ s.takeWhile fun c => !isWs c) := by
  intro s
  induction s with
  | nil =>
    intro cur hcur
    simp [splitAux, List.isEmpty_iff, hcur]
  | cons c rest ih =>
    intro cur hcur
    cases hc : isWs c with
    | true => simp [splitAux, hc, List.isEmpty_iff, hcur, List.takeWhile_cons]
    | false =>
      have h2 := ih (c :: cur) (by simp)
      have h3 : splitAux (c :: rest) cur = splitAux rest (c :: cur) := by
        simp [splitAux, hc]
      rw [h3, h2]
      simp [List.takeWhile_cons, hc]

/-- The head token of `pySplit` is the first maximal non-whitespace run,
provided some non-whitespace character exists. -/
theorem pySplit_head :
    ∀ s : List Char, (∃ c ∈ s, isWs c = false) →
      (pySplit s).head? = some ((s.dropWhile isWs).takeWhile fun c => !isWs c) := by
  intro s
  induction s with
  | nil => rintro ⟨c, hc, _⟩; cases hc
  | cons c rest ih =>
    intro hex
    cases hc : isWs c with
    | true =>
      have hex' : ∃ x ∈ rest, isWs x = false := by
        rcases hex with ⟨x, hx, hxw⟩
        rcases List.mem_cons.mp hx with rfl | hx'
        · rw [hc] at hxw; cases hxw
        · exact ⟨x, hx', hxw⟩
      have := ih hex'
      simpa [pySplit, splitAux, hc, List.dropWhile_cons] using this
    | false =>
      have := splitAux_head_pending rest [c] (by simp)
      simp [pySplit, splitAux, hc, List.dropWhile_cons, List.takeWhile_cons, this]

/-- Leading whitespace never affects `pySplit`. -/
theorem splitAux_dropLeading :
    ∀ s : List Char, splitAux (s.dropWhile isWs) [] = splitAux s [] := by
  intro s
  induction s with
  | nil => rfl
  | cons c rest ih =>
    cases hc : isWs c with
    | true => simpa [List.dropWhile_cons, hc, splitAux] using ih
    | false => simp [List.dropWhile_cons, hc]

/-- An all-whitespace suffix never affects `splitAux`. -/
theorem splitAux_append_ws (w : List Char) (hw : ∀ c ∈ w, isWs c = true) :
    ∀ (s cur : List Char), splitAux (s ++ w) cur = splitAux s cur := by
  intro s
  induction s with
  | nil =>
    intro cur
    rw [List.nil_append, splitAux_allWs w hw cur]
    rfl
  | cons c rest ih =>
    intro cur
    cases hc : isWs c with
    | true =>
      cases cur with
      | nil => simp [splitAux, hc, ih]
      | cons a as => simp [splitAux, hc, ih]
    | false => simp [splitAux, hc, ih]

/-- Every list is its trailing-whitespace-stripped part plus an
all-whitespace suffix. -/
theorem dropTrailingWs_decomp (l : List Char) :
    l = dropTrailingWs l ++ (l.reverse.takeWhile isWs).reverse ∧
    ∀ c ∈ (l.reverse.takeWhile isWs).reverse, isWs c = true := by
  constructor
  · conv_lhs => rw [← List.reverse_reverse l,
      ← List.takeWhile_append_dropWhile isWs l.reverse]
    rw [List.reverse_append]
    rfl
  · intro c hc
    exact List.mem_takeWhile_imp (List.mem_reverse.mp hc)

/-- Python `strip()` never affects `split()`. -/
theorem pySplit_strip (l : List Char) : pySplit (pyStrip l) = pySplit l := by
  have hm := dropTrailingWs_decomp (l.dropWhile isWs)
  calc pySplit (pyStrip l)
      = splitAux (dropTrailingWs (l.dropWhile isWs)) [] := rfl
    _ = splitAux (dropTrailingWs (l.dropWhile isWs)
          ++ ((l.dropWhile isWs).reverse.takeWhile isWs).reverse) [] := by
        rw [splitAux_append_ws _ hm.2]
    _ = splitAux (l.dropWhile isWs) [] := by rw [← hm.1]
    _ = splitAux l [] := splitAux_dropLeading l

/-- C7 (confirmed): for a displayed price text with at least one
non-whitespace character, the extracted price — `price_text.split()[0]`
after `strip()` — equals the first whitespace-delimited token of the
text, with everything after that token discarded; and any successfully
extracted record built from that price element stores exactly that token. -/
theorem price_is_first_token (t : List Char) (h : ∃ c ∈ t, isWs c = false) :
    (pySplit (pyStrip t)).head?
        = some ((t.dropWhile isWs).takeWhile fun c => !isWs c) ∧
    ∀ (sku : List Char) (p : PageData) (r : ProductRecord),
      p.priceEl = some t → extractProduct sku p = .ok r →
      r.price = (t.dropWhile isWs).takeWhile fun c => !isWs c := by
  have hhead : (pySplit (pyStrip t)).head?
      = some ((t.dropWhile isWs).takeWhile fun c => !isWs c) := by
    rw [pySplit_strip]
    exact pySplit_head t h
  refine ⟨hhead, ?_⟩
  intro sku p r hpe hok
  rcases hte : p.titleEl with _ | rawTitle
  · simp [extractProduct, hte] at hok
  · rcases hsp : pySplit (pyStrip t) with _ | ⟨price, restTok⟩
    · simp [extractProduct, hte, hpe, hsp] at hok
    · rcases hav : p.availEl with _ | rawAvail
      · simp [extractProduct, hte, hpe, hsp, hav] at hok
      · simp only [extractProduct, hte, hpe, hsp, hav, Except.ok.injEq] at hok
        rw [hsp] at hhead
        rw [← hok]
        simpa using hhead

/-- C7 witness: on the price text `"  199 kr"`, the extracted price is
`"199"`. -/
theorem price_is_first_token_witness :
    (pySplit (pyStrip "  199 kr".toList)).head? = some "199".toList :=
  ((price_is_first_token "  199 kr".toList (by decide)).1).trans (by decide)

/-- Members survive `pyStrip`. -/
theorem mem_pyStrip {c : Char} {l : List Char} (h : c ∈ pyStrip l) : c ∈ l := by
  unfold pyStrip dropTrailingWs at h
  have h1 := List.mem_reverse.mp h
  have h2 := (List.dropWhile_sublist isWs).subset h1
  have h3 := List.mem_reverse.mp h2
  exact (List.dropWhile_sublist isWs).subset h3

/-- C9 (confirmed): a whitespace-only (or empty) displayed price text
makes `price_text.split()[0]` raise `IndexError`, and nothing inside the
per-identifier loop catches it: the loop terminates immediately with
that error. -/
theorem whitespace_price_uncaught (p : PageData) (t w : List Char)
    (ht : p.titleEl = some t) (hw : p.priceEl = some w)
    (hws : ∀ c ∈ w, isWs c = true) :
    (∀ sku : List Char, extractProduct sku p = .error .indexError) ∧
    ∀ (pages : List Char → PageData) (sku : List Char) (rest : List (List Char)),
      pages sku = p → runLoop pages (sku :: rest) = ([], some Err.indexError) := by
  have hsplit : pySplit (pyStrip w) = [] := by
    have hsub : ∀ c ∈ pyStrip w, isWs c = true := fun c hc => hws c (mem_pyStrip hc)
    simpa using splitAux_allWs (pyStrip w) hsub []
  have hextract : ∀ sku : List Char, extractProduct sku p = .error .indexError := by
    intro sku
    simp [extractProduct, ht, hw, hsplit]
  refine ⟨hextract, ?_⟩
  intro pages sku rest hpage
  simp [runLoop, hpage, hextract sku]

/-- C9 witness: SKU `W1` has the whitespace-only price text `"   "`; the
run's loop on it ends at once with the `IndexError`. -/
theorem whitespace_price_uncaught_witness :
    runLoop pagesC9 ["W1".toList, "B2".toList] = ([], some Err.indexError) :=
  (whitespace_price_uncaught wsPricePage "Vase".toList "   ".toList
      (by decide) (by decide) (by decide)).2
    pagesC9 "W1".toList ["B2".toList] (by decide)

/-- Appending one line per attribute via `foldl` equals the initial lines
followed by the mapped attribute lines. -/
theorem foldl_append_lines (g : List Char × List Char → List Char) :
    ∀ (xs : Dict) (init : List (List Char)),
      xs.foldl (fun acc lv => acc ++ [g lv]) init = init ++ xs.map g := by
  intro xs
  induction xs with
  | nil => intro init; simp
  | cons x rest ih => intro init; simp [ih]

/-- C4 (confirmed): for every successfully extracted product record, the
`data.txt` content is exactly the lines `SKU: <id>`, `Title: <title>`,
`Price: <price>`, `In stock: YES|NO`, a blank line, the description, then
one `<label>: <value>` line per attribute in insertion order, joined by
newlines. -/
theorem dataTxt_layout (sku : List Char) (p : PageData) (r : ProductRecord)
    (h : extractProduct sku p = .ok r) :
    dataTxt r = List.intercalate "\n".toList
        ([ "SKU: ".toList ++ r.sku
         , "Title: ".toList ++ r.title
         , "Price: ".toList ++ r.price
         , "In stock: ".toList ++ r.in_stock
         , []
         , r.description ]
          ++ r.attributes.map fun lv => lv.1 ++ ": ".toList ++ lv.2) ∧
    (r.in_stock = "YES".toList ∨ r.in_stock = "NO".toList) := by
  constructor
  · unfold dataTxt metadataLines
    rw [foldl_append_lines]
  · rcases hte : p.titleEl with _ | rawTitle
    · simp [extractProduct, hte] at h
    · rcases hpe : p.priceEl with _ | rawPrice
      · simp [extractProduct, hte, hpe] at h
      · rcases hsp : pySplit (pyStrip rawPrice) with _ | ⟨price, restTok⟩
        · simp [extractProduct, hte, hpe, hsp] at h
        · rcases hav : p.availEl with _ | rawAvail
          · simp [extractProduct, hte, hpe, hsp, hav] at h
          · simp only [extractProduct, hte, hpe, hsp, hav, Except.ok.injEq] at h
            have hflag : stockFlag rawAvail = "YES".toList ∨
                stockFlag rawAvail = "NO".toList := by
              unfold stockFlag
              cases pyContains (pyLower rawAvail) "lager".toList
              · right; simp
              · left; simp
            rw [← h]
            simpa using hflag

/-- C4 witness: on the fully populated example page, `data.txt` is the
expected literal text. -/
theorem dataTxt_layout_witness :
    dataTxt { sku := "B2".toList
            , title := "Vase".toList
            , description := "A vase.".toList
            , price := "199".toList
            , in_stock := "YES".toList
            , attributes := [("Color".toList, "Blue".toList)]
            , imageUrls := ["http://x/1.png".toList, "http://x/2.png".toList] }
        = "SKU: B2\nTitle: Vase\nPrice: 199\nIn stock: YES\n\nA vase.\nColor: Blue".toList ∧
    (("YES".toList : List Char) = "YES".toList ∨
      ("YES".toList : List Char) = "NO".toList) :=
by
  have h := dataTxt_layout "B2".toList goodPage
      { sku := "B2".toList
      , title := "Vase".toList
      , description := "A vase.".toList
      , price := "199".toList
      , in_stock := "YES".toList
      , attributes := [("Color".toList, "Blue".toList)]
      , imageUrls := ["http://x/1.png".toList, "http://x/2.png".toList] }
      (by decide)
  exact ⟨h.1.trans (by decide), h.2⟩

/-- C8 (confirmed): for every image mode that decoding can produce, the
normalizer converts to the 4-channel `RGBA` representation exactly when
the decoded image has an alpha channel, to the 3-channel `RGB`
representation otherwise, and always encodes to `WEBP` with optimization
enabled. -/
theorem convert_mode_channels (m : String) (hm : m ∈ imageOpenModes) :
    ((convert_to_webp m).1 = "RGBA" ↔ m ∈ alphaModes) ∧
    channelsOf (convert_to_webp m).1 = (if m ∈ alphaModes then 4 else 3) ∧
    (convert_to_webp m).2.format = "WEBP" ∧
    (convert_to_webp m).2.optimize = true := by
  simp only [imageOpenModes, List.mem_cons, List.not_mem_nil, or_false] at hm
  rcases hm with rfl | rfl | rfl | rfl | rfl | rfl | rfl | rfl | rfl | rfl <;> decide

/-- C8 witness: the `RGBA` mode keeps its alpha channel and is saved as
optimized WEBP. -/
theorem convert_mode_channels_witness :
    ((convert_to_webp "RGBA").1 = "RGBA" ↔ "RGBA" ∈ alphaModes) ∧
    channelsOf (convert_to_webp "RGBA").1 = (if "RGBA" ∈ alphaModes then 4 else 3) ∧
    (convert_to_webp "RGBA").2.format = "WEBP" ∧
    (convert_to_webp "RGBA").2.optimize = true :=
  convert_mode_channels "RGBA" (by decide)

/-- Updating a value never changes the key sequence. -/
theorem keysOf_updateVal (d : Dict) (k v : List Char) :
    keysOf (updateVal d k v) = keysOf d := by
  unfold keysOf updateVal
  rw [List.map_map]
  apply List.map_congr_left
  intro p _
  by_cases h : p.1 = k <;> simp [Function.comp, h]

/-- The inserted key is among the keys afterwards. -/
theorem mem_keysOf_dictInsert (d : Dict) (k v : List Char) :
    k ∈ keysOf (dictInsert d k v) := by
  unfold dictInsert
  by_cases h : k ∈ keysOf d
  · rw [if_pos h, keysOf_updateVal]; exact h
  · rw [if_neg h]; unfold keysOf; simp

/-- Keys are never lost by an insertion. -/
theorem mem_keysOf_dictInsert_of_mem (d : Dict) {k : List Char} (k' v : List Char)
    (h : k ∈ keysOf d) : k ∈ keysOf (dictInsert d k' v) := by
  unfold dictInsert
  by_cases h2 : k' ∈ keysOf d
  · rw [if_pos h2, keysOf_updateVal]; exact h
  · rw [if_neg h2]
    unfold keysOf at h ⊢
    simp only [List.map_append, List.mem_append]
    exact Or.inl h

/-- Keys are never lost by processing one row. -/
theorem mem_keysOf_addRow (d : Dict) (cells : List (List Char)) {k : List Char}
    (h : k ∈ keysOf d) : k ∈ keysOf (addRow d cells) := by
  match cells with
  | [] => exact h
  | [c0] => exact h
  | [c0, c1] => exact mem_keysOf_dictInsert_of_mem d _ _ h
  | c0 :: c1 :: c2 :: rest => exact h

/-- Keys are never lost by folding rows. -/
theorem mem_keysOf_foldl_addRow (rows : List (List (List Char))) :
    ∀ (d : Dict) {k : List Char}, k ∈ keysOf d →
      k ∈ keysOf (List.foldl addRow d rows) := by
  induction rows with
  | nil => intro d k h; exact h
  | cons cells rest ih =>
    intro d k h
    exact ih (addRow d cells) (mem_keysOf_addRow d cells h)

/-- Updating an absent key does nothing. -/
theorem updateVal_not_mem (d : Dict) (k v : List Char) (h : k ∉ keysOf d) :
    updateVal d k v = d := by
  unfold updateVal
  have hcong : ∀ p ∈ d, (if p.1 = k then (p.1, v) else p) = p := by
    intro p hp
    have : p.1 ≠ k := by
      intro he
      exact h (he ▸ List.mem_map_of_mem Prod.fst hp)
    rw [if_neg this]
  rw [List.map_congr_left hcong]
  simp

/-- Two consecutive updates of the same key keep only the second. -/
theorem updateVal_updateVal (d : Dict) (k v1 v2 : List Char) :
    updateVal (updateVal d k v1) k v2 = updateVal d k v2 := by
  unfold updateVal
  rw [List.map_map]
  apply List.map_congr_left
  intro p _
  by_cases h : p.1 = k <;> simp [Function.comp, h]

/-- `updateVal` distributes over append. -/
theorem updateVal_append (d e : Dict) (k v : List Char) :
    updateVal (d ++ e) k v = updateVal d k v ++ updateVal e k v := by
  unfold updateVal
  rw [List.map_append]

/-- Updating the key just inserted is the same as inserting the new
value directly. -/
theorem updateVal_dictInsert_same (d : Dict) (k v1 v2 : List Char) :
    updateVal (dictInsert d k v1) k v2 = dictInsert d k v2 := by
  unfold dictInsert
  by_cases h : k ∈ keysOf d
  · rw [if_pos h, if_pos h, updateVal_updateVal]
  · rw [if_neg h, if_neg h, updateVal_append, updateVal_not_mem d k v2 h]
    unfold updateVal
    simp

/-- Updating one key commutes with inserting a different key. -/
theorem dictInsert_updateVal_comm (d : Dict) (k v k' v' : List Char)
    (hne : k ≠ k') :
    dictInsert (updateVal d k v) k' v' = updateVal (dictInsert d k' v') k v := by
  unfold dictInsert
  rw [keysOf_updateVal]
  by_cases h : k' ∈ keysOf d
  · rw [if_pos h, if_pos h]
    unfold updateVal
    rw [List.map_map, List.map_map]
    apply List.map_congr_left
    intro p _
    have hne' : k' ≠ k := Ne.symm hne
    by_cases h1 : p.1 = k
    · have h2 : p.1 ≠ k' := fun he => hne (h1.symm.trans he)
      simp [Function.comp, h1, h2, hne, hne']
    · by_cases h2 : p.1 = k' <;> simp [Function.comp, h1, h2, hne, hne']
  · rw [if_neg h, if_neg h, updateVal_append]
    unfold updateVal
    simp [Ne.symm hne]

/-- Processing one row whose label is not `k` commutes with updating
`k`'s value. -/
theorem addRow_updateVal_comm (d : Dict) (cells : List (List Char))
    (k v : List Char) (hne : wfLabel cells ≠ some k) :
    addRow (updateVal d k v) cells = updateVal (addRow d cells) k v := by
  match cells with
  | [] => rfl
  | [c0] => rfl
  | [c0, c1] =>
    have hlab : k ≠ rowLabel c0 := by
      intro he
      exact hne (by simp [wfLabel, he])
    exact dictInsert_updateVal_comm d k v (rowLabel c0) (pyStrip c1) hlab
  | c0 :: c1 :: c2 :: rest => rfl

/-- Folding rows none of which carries label `k` commutes with updating
`k`'s value. -/
theorem foldl_addRow_updateVal (k v : List Char) :
    ∀ rows : List (List (List Char)),
      (∀ cells ∈ rows, wfLabel cells ≠ some k) →
      ∀ d : Dict,
        List.foldl addRow (updateVal d k v) rows
          = updateVal (List.foldl addRow d rows) k v := by
  intro rows
  induction rows with
  | nil => intro _ d; rfl
  | cons cells rest ih =>
    intro hrows d
    have h1 : wfLabel cells ≠ some k := hrows cells (by simp)
    have h2 : ∀ c ∈ rest, wfLabel c ≠ some k := fun c hc => hrows c (by simp [hc])
    calc List.foldl addRow (updateVal d k v) (cells :: rest)
        = List.foldl addRow (addRow (updateVal d k v) cells) rest := by
          rw [List.foldl_cons]
      _ = List.foldl addRow (updateVal (addRow d cells) k v) rest := by
          rw [addRow_updateVal_comm d cells k v h1]
      _ = updateVal (List.foldl addRow (addRow d cells) rest) k v := ih h2 _
      _ = updateVal (List.foldl addRow d (cells :: rest)) k v := by
          rw [List.foldl_cons]

/-- Insertion keeps the key sequence duplicate-free. -/
theorem keysOf_dictInsert_nodup (d : Dict) (k v : List Char)
    (h : (keysOf d).Nodup) : (keysOf (dictInsert d k v)).Nodup := by
  unfold dictInsert
  by_cases hm : k ∈ keysOf d
  · rw [if_pos hm, keysOf_updateVal]; exact h
  · rw [if_neg hm]
    unfold keysOf at h hm ⊢
    simp [List.map_append, List.nodup_append, h, hm]

/-- Processing one row keeps the key sequence duplicate-free. -/
theorem keysOf_addRow_nodup (d : Dict) (cells : List (List Char))
    (h : (keysOf d).Nodup) : (keysOf (addRow d cells)).Nodup := by
  match cells with
  | [] => exact h
  | [c0] => exact h
  | [c0, c1] => exact keysOf_dictInsert_nodup d _ _ h
  | c0 :: c1 :: c2 :: rest => exact h

/-- Folding rows keeps the key sequence duplicate-free. -/
theorem keysOf_foldl_addRow_nodup (rows : List (List (List Char))) :
    ∀ d : Dict, (keysOf d).Nodup →
      (keysOf (List.foldl addRow d rows)).Nodup := by
  induction rows with
  | nil => intro d h; exact h
  | cons cells rest ih =>
    intro d h
    exact ih _ (keysOf_addRow_nodup d cells h)

/-- A later row duplicating an earlier row's label collapses to the
earlier row carrying the later value. -/
theorem foldl_addRow_dup (d0 : Dict) (mid post : List (List (List Char)))
    (a b v1 v2 : List Char) (hab : rowLabel a = rowLabel b)
    (hmid : ∀ cells ∈ mid, wfLabel cells ≠ some (rowLabel a)) :
    List.foldl addRow d0 ([a, v1] :: (mid ++ [b, v2] :: post))
      = List.foldl addRow d0 ([b, v2] :: (mid ++ post)) := by
  rw [List.foldl_cons, List.foldl_append, List.foldl_cons, List.foldl_cons,
    List.foldl_append]
  congr 1
  have hmem : rowLabel a ∈ keysOf (List.foldl addRow (addRow d0 [a, v1]) mid) :=
    mem_keysOf_foldl_addRow mid _ (mem_keysOf_dictInsert d0 (rowLabel a) (pyStrip v1))
  calc addRow (List.foldl addRow (addRow d0 [a, v1]) mid) [b, v2]
      = dictInsert (List.foldl addRow (addRow d0 [a, v1]) mid)
          (rowLabel b) (pyStrip v2) := rfl
    _ = dictInsert (List.foldl addRow (addRow d0 [a, v1]) mid)
          (rowLabel a) (pyStrip v2) := by rw [hab]
    _ = updateVal (List.foldl addRow (addRow d0 [a, v1]) mid)
          (rowLabel a) (pyStrip v2) := by
        unfold dictInsert
        rw [if_pos hmem]
    _ = List.foldl addRow (updateVal (addRow d0 [a, v1])
          (rowLabel a) (pyStrip v2)) mid :=
        (foldl_addRow_updateVal (rowLabel a) (pyStrip v2) mid hmid _).symm
    _ = List.foldl addRow (dictInsert d0 (rowLabel a) (pyStrip v2)) mid := by
        rw [show addRow d0 [a, v1] = dictInsert d0 (rowLabel a) (pyStrip v1) from rfl,
          updateVal_dictInsert_same]
    _ = List.foldl addRow (addRow d0 [b, v2]) mid := by
        rw [show addRow d0 [b, v2] = dictInsert d0 (rowLabel b) (pyStrip v2) from rfl,
          hab]

/-- C10 (confirmed): when two well-formed rows of the attribute table
produce the same label after trailing-colon stripping, and no well-formed
row between them produces that label, the resulting mapping has exactly
one entry for that label: it behaves as the mapping in which the earlier
row already carried the later row's value and the later row is absent, so
the value comes from the later row while the entry keeps the earlier
row's position in insertion order. -/
theorem duplicate_label_attrs (pre mid post : List (List (List Char)))
    (a b v1 v2 : List Char)
    (hab : rowLabel a = rowLabel b)
    (hmid : ∀ cells ∈ mid, wfLabel cells ≠ some (rowLabel a)) :
    buildAttrs (pre ++ [a, v1] :: (mid ++ [b, v2] :: post))
      = buildAttrs (pre ++ [b, v2] :: (mid ++ post)) ∧
    @List.count (List Char) instBEqOfDecidableEq (rowLabel a)
        (keysOf (buildAttrs (pre ++ [a, v1] :: (mid ++ [b, v2] :: post)))) = 1 := by
  constructor
  · unfold buildAttrs
    rw [List.foldl_append, List.foldl_append]
    exact foldl_addRow_dup (List.foldl addRow [] pre) mid post a b v1 v2 hab hmid
  · have hnodup :
        (keysOf (buildAttrs (pre ++ [a, v1] :: (mid ++ [b, v2] :: post)))).Nodup :=
      keysOf_foldl_addRow_nodup _ [] (by simp [keysOf])
    have hmem :
        rowLabel a ∈ keysOf (buildAttrs (pre ++ [a, v1] :: (mid ++ [b, v2] :: post))) := by
      unfold buildAttrs
      rw [List.foldl_append, List.foldl_cons]
      exact mem_keysOf_foldl_addRow _ _
        (mem_keysOf_dictInsert (List.foldl addRow [] pre) (rowLabel a) (pyStrip v1))
    exact List.count_eq_one_of_mem hnodup hmem

/-- C10 witness: rows `Color:`→`Red` and `Color`→`Blue` separated by
`Size:`→`M`: the mapping keeps one `Color` entry, in the earlier
position, with value `Blue`. -/
theorem duplicate_label_attrs_witness :
    buildAttrs ([["Material".toList, "Iron".toList]]
        ++ ["Color:".toList, "Red".toList]
        :: ([["Size:".toList, "M".toList]]
            ++ ["Color".toList, "Blue".toList] :: [])) =
      buildAttrs ([["Material".toList, "Iron".toList]]
        ++ ["Color:".toList, "Blue".toList]
        :: ([["Size:".toList, "M".toList]] ++ [])) ∧
    @List.count (List Char) instBEqOfDecidableEq (rowLabel "Color:".toList)
        (keysOf (buildAttrs ([["Material".toList, "Iron".toList]]
        ++ ["Color:".toList, "Red".toList]
        :: ([["Size:".toList, "M".toList]]
            ++ ["Color".toList, "Blue".toList] :: [])))) = 1 :=
  duplicate_label_attrs [["Material".toList, "Iron".toList]]
    [["Size:".toList, "M".toList]] [] "Color:".toList "Color".toList
    "Red".toList "Blue".toList (by decide) (by decide)
